import Mathlib

/-!
Verification of the parameter-management core of `params.h`
(classes `AnyParams` and `AnyParamManager` from the similarity-search
library).

The C++ code is shallowly embedded: `LOG(FATAL)` failure points become
`Except PError` results carrying exactly the information that the fatal
message carries, `std::set<string>` membership becomes `List String`
membership, and the generic `template <typename ParamType>` machinery
becomes parametrization over a conversion function
`String → Except PError α`.  The `int` instance of the converter
models `istream >> int` with C-locale whitespace skipping and the
32-bit `int` range: as `num_get` sets `failbit` on an unrepresentable
value, extraction fails there.
-/

namespace similarity

/-- The fatal/error conditions of params.h, one constructor per
`LOG(FATAL)` site, each carrying exactly the data the fatal message
interpolates.  In particular `parameterConversion` carries only the
offending text and the target type name, because
`ConvertStrToValue` has no access to the parameter name. -/
inductive PError where
  | malformedParameter (token : String)
  | duplicateParameter (name : String)
  | parameterNotFound (name : String)
  | missingRequiredParameter (name : String)
  | parameterConversion (text : String) (typeName : String)
  | unknownParameters (names : List String)
  | lengthMismatch
deriving DecidableEq, Repr

/-- The text of each `LOG(FATAL)` message, verbatim from params.h. -/
def PError.message : PError → String
  | .malformedParameter t =>
      "Wrong format of the method argument: '" ++ t ++
      "' should be in the format: <Name>=<Value>"
  | .duplicateParameter n => "Duplicate parameter: " ++ n
  | .parameterNotFound n => "Parameter not found: " ++ n
  | .missingRequiredParameter n => "Mandatory parameter: " ++ n ++ " is missing!"
  | .parameterConversion s ty =>
      "Failed to convert value '" ++ s ++ "' from type: " ++ ty
  | .unknownParameters _ => "Unknown parameters found, aborting!"
  | .lengthMismatch => "Bug: different # of parameters and values"

/-- Split a character list at every occurrence of `delim`:
`n` delimiters yield `n + 1` delimiter-free pieces. -/
def splitChars (delim : Char) : List Char → List (List Char)
  | [] => [[]]
  | c :: cs =>
    let r := splitChars delim cs
    if c = delim then [] :: r
    else (c :: r.headD []) :: r.tail

/-- Modelled from the spec: `SplitStr` (declared in a string utility
header that is not part of the shown fragment) splits a string on a
delimiter character into its delimiter-free pieces; per the spec the
constructor then demands that "the split ... yield exactly two parts".
-/
def SplitStr (s : String) (delim : Char) : List String :=
  (splitChars delim s.data).map String.mk

/-- The name part of a well-formed `name=value` token. -/
def tokName (t : String) : String := (SplitStr t '=').getD 0 ""

/-- The value part of a well-formed `name=value` token. -/
def tokValue (t : String) : String := (SplitStr t '=').getD 1 ""

/-- Structure `AnyParams`: parallel sequences of parameter names and textual
values.  The two-argument constructor of the C++ class is the plain
structure constructor: it stores both vectors as given, with no check.
-/
structure AnyParams where
  ParamNames : List String
  ParamValues : List String
deriving DecidableEq, Repr

/-- The loop body of `AnyParams(const vector<string>& MethodDesc)`:
each token is split on `=`; a split that does not have exactly two
parts is fatal, a name already seen is fatal, otherwise the pair is
appended.  `seen` is the accumulator of names met so far. -/
def addTokens (seen : List String) : List String → Except PError (List (String × String))
  | [] => .ok []
  | tok :: rest =>
    match SplitStr tok '=' with
    | [Name, sVal] =>
      if Name ∈ seen then .error (.duplicateParameter Name)
      else
        match addTokens (Name :: seen) rest with
        | .ok tl => .ok ((Name, sVal) :: tl)
        | .error e => .error e
    | _ => .error (.malformedParameter tok)

/-- Constructor `AnyParams::AnyParams(const vector<string>& MethodDesc)`. -/
def AnyParams.ofMethodDesc (MethodDesc : List String) : Except PError AnyParams :=
  match addTokens [] MethodDesc with
  | .ok prs => .ok ⟨prs.map Prod.fst, prs.map Prod.snd⟩
  | .error e => .error e

/-- Method `AnyParams::ChangeParam`: find the first index whose name matches,
store the serialized value there (the C++ `stringstream << Value`
serialization is the `serialize` argument); fatal if no index matches.
-/
def AnyParams.ChangeParam {α : Type} (serialize : α → String) (p : AnyParams)
    (Name : String) (Value : α) : Except PError AnyParams :=
  match p.ParamNames.findIdx? (fun n => Name == n) with
  | some i => .ok { p with ParamValues := p.ParamValues.set i (serialize Value) }
  | none => .error (.parameterNotFound Name)

/-- Decimal value of a digit list, most significant digit first. -/
def digitsVal (ds : List Char) : Nat :=
  ds.foldl (fun a c => a * 10 + (c.toNat - ('0').toNat)) 0

/-- Optional leading sign of a stream integer extraction. -/
def readSign : List Char → Int × List Char
  | [] => (1, [])
  | c :: rest =>
    if c = '-' then (-1, rest)
    else if c = '+' then (1, rest)
    else (1, c :: rest)

/-- C-locale `isspace`, the set the default `skipws` formatting skips:
space, tab, newline, vertical tab, form feed, carriage return.  (Lean's
`Char.isWhitespace` omits `'\x0b'` and `'\x0c'`, so it is not used.) -/
def isSpaceC (c : Char) : Bool :=
  c = ' ' || c = '\t' || c = '\n' || c = '\x0b' || c = '\x0c' || c = '\r'

/-- Extraction `istream >> int` on the remaining characters: skip
leading C-locale whitespace, read an optional sign, then a nonempty
run of decimal digits, and fail — as `num_get` does by setting
`failbit` — when no digit can be read or the parsed value is not
representable in a 32-bit `int` (`-2147483648` through `2147483647`);
on success return the value and the unconsumed suffix. -/
def streamReadInt (cs : List Char) : Option (Int × List Char) :=
  let cs1 := cs.dropWhile isSpaceC
  let sc := readSign cs1
  let ds := sc.2.takeWhile Char.isDigit
  let rest := sc.2.dropWhile Char.isDigit
  let n : Int := sc.1 * (digitsVal ds : Int)
  if ds = [] ∨ n < -2147483648 ∨ 2147483648 ≤ n then none
  else some (n, rest)

/-- The generic `ConvertStrToValue` instantiated at `int`:
`stringstream str(s); if (!(str >> Value) || !str.eof()) LOG(FATAL)`.
Extraction fails (`failbit`) when no integer can be read or the value
does not fit a 32-bit `int`; `str.eof()` holds exactly when extraction
consumed every character.  The type name `"i"` is `typeid(int).name()`
under the Itanium ABI. -/
def ConvertStrToValueInt (s : String) : Except PError Int :=
  match streamReadInt s.data with
  | some (v, []) => .ok v
  | _ => .error (.parameterConversion s "i")

/-- The `string` specialization of `ConvertStrToValue`: `Value = str`. -/
def ConvertStrToValueString (s : String) : Except PError String := .ok s

/-- Structure `AnyParamManager`: a managed parameter set plus the set of names
seen so far (`std::set<string>` modelled by a duplicate-free list, only
membership matters). -/
structure AnyParamManager where
  params : AnyParams
  seen : List String
deriving DecidableEq, Repr

/-- Constructor `AnyParamManager::AnyParamManager`: fatal when the two vectors of
the wrapped set differ in length, otherwise start with an empty seen
set. -/
def mkAnyParamManager (params : AnyParams) : Except PError AnyParamManager :=
  if params.ParamNames.length = params.ParamValues.length then .ok ⟨params, []⟩
  else .error .lengthMismatch

/-- The lookup loop of `AnyParamManager::GetParam`: walk every
name/value pair; on each pair whose name matches, convert its value
(fatal on conversion failure) and overwrite the running result; record
whether any pair matched.  Note the loop does not stop at the first
match. -/
def getParamLoop {α : Type} (conv : String → Except PError α) (Name : String) :
    List (String × String) → α → Bool → Except PError (α × Bool)
  | [], v, found => .ok (v, found)
  | (n, s) :: rest, v, found =>
    if Name = n then
      match conv s with
      | .ok v' => getParamLoop conv Name rest v' true
      | .error e => .error e
    else getParamLoop conv Name rest v found

/-- Method `AnyParamManager::GetParam`: run the lookup loop over the pairs of
the managed set; when nothing matched and the parameter is required,
fatal (before the seen-insertion); otherwise insert the name into
`seen` and return the (possibly unchanged) value. -/
def AnyParamManager.GetParam {α : Type} (conv : String → Except PError α)
    (m : AnyParamManager) (Name : String) (Value : α) (bRequired : Bool) :
    Except PError (α × AnyParamManager) :=
  match getParamLoop conv Name (m.params.ParamNames.zip m.params.ParamValues) Value false with
  | .error e => .error e
  | .ok (v, bFound) =>
    if !bFound && bRequired then .error (.missingRequiredParameter Name)
    else .ok (v, { m with seen := m.seen.insert Name })

/-- Method `AnyParamManager::GetParamRequired`. -/
def AnyParamManager.GetParamRequired {α : Type} (conv : String → Except PError α)
    (m : AnyParamManager) (Name : String) (Value : α) :
    Except PError (α × AnyParamManager) :=
  m.GetParam conv Name Value true

/-- Method `AnyParamManager::GetParamOptional`. -/
def AnyParamManager.GetParamOptional {α : Type} (conv : String → Except PError α)
    (m : AnyParamManager) (Name : String) (Value : α) :
    Except PError (α × AnyParamManager) :=
  m.GetParam conv Name Value false

/-- The loop of `AnyParamManager::ExtractParametersExcept`: keep every
pair whose name is not excluded, inserting each kept name into the
seen set; returns (kept names, kept values, final seen set). -/
def extractLoop (excl : List String) :
    List (String × String) → List String → List String × List String × List String
  | [], seen => ([], [], seen)
  | (n, v) :: rest, seen =>
    if n ∈ excl then extractLoop excl rest seen
    else
      let r := extractLoop excl rest (seen.insert n)
      (n :: r.1, v :: r.2.1, r.2.2)

/-- Method `AnyParamManager::ExtractParametersExcept`: build a fresh
`AnyParams` from the kept pairs; the managed set itself is untouched.
-/
def AnyParamManager.ExtractParametersExcept (m : AnyParamManager)
    (ExceptList : List String) : AnyParams × AnyParamManager :=
  let r := extractLoop ExceptList (m.params.ParamNames.zip m.params.ParamValues) m.seen
  (⟨r.1, r.2.1⟩, ⟨m.params, r.2.2⟩)

/-- The names the destructor `~AnyParamManager` reports: every entry of
`ParamNames` not in `seen`, in order. -/
def AnyParamManager.unseenNames (m : AnyParamManager) : List String :=
  m.params.ParamNames.filter (fun n => decide (n ∉ m.seen))

/-- Destructor `~AnyParamManager`: log each unseen name, then fatal exactly when
at least one exists (the single fatal aggregates them all). -/
def AnyParamManager.endOfPassCheck (m : AnyParamManager) : Except PError Unit :=
  if m.unseenNames.isEmpty then .ok ()
  else .error (.unknownParameters m.unseenNames)

/-! ### Helper lemmas about splitting -/

theorem splitChars_ne_nil (d : Char) (cs : List Char) : splitChars d cs ≠ [] := by
  cases cs with
  | nil => simp [splitChars]
  | cons c cs =>
    simp only [splitChars]
    split <;> simp

theorem splitChars_length (d : Char) (cs : List Char) :
    (splitChars d cs).length = cs.count d + 1 := by
  induction cs with
  | nil => simp [splitChars]
  | cons c cs ih =>
    by_cases h : c = d
    · subst h
      simp [splitChars, List.count_cons, ih]
    · have hne := splitChars_ne_nil d cs
      have hlen : (splitChars d cs).length ≠ 0 := fun hz => hne (List.length_eq_zero.mp hz)
      simp only [splitChars, if_neg h, List.length_cons, List.length_tail,
        List.count_cons]
      rw [if_neg (by simpa using h)]
      omega

theorem splitChars_eq_singleton (d : Char) (cs : List Char) : ∀ x : List Char,
    splitChars d cs = [x] → cs = x := by
  induction cs with
  | nil =>
    intro x h
    simp only [splitChars, List.cons.injEq, and_true] at h
    exact h
  | cons c cs ih =>
    intro x h
    simp only [splitChars] at h
    by_cases hc : c = d
    · rw [if_pos hc] at h
      injection h with _ h2
      exact absurd h2 (splitChars_ne_nil d cs)
    · rw [if_neg hc] at h
      injection h with h1 h2
      obtain ⟨y, ys, hy⟩ := List.exists_cons_of_ne_nil (splitChars_ne_nil d cs)
      rw [hy] at h1 h2
      simp only [List.tail_cons] at h2
      subst h2
      simp only [List.headD_cons] at h1
      rw [ih y (by rw [hy])]
      exact h1


theorem splitChars_eq_pair (d : Char) (cs : List Char) : ∀ a b : List Char,
    splitChars d cs = [a, b] → cs = a ++ d :: b := by
  induction cs with
  | nil =>
    intro a b h
    simp [splitChars] at h
  | cons c cs ih =>
    intro a b h
    simp only [splitChars] at h
    by_cases hc : c = d
    · rw [if_pos hc] at h
      injection h with h1 h2
      rw [← h1, splitChars_eq_singleton d cs b h2, hc]
      simp
    · rw [if_neg hc] at h
      injection h with h1 h2
      obtain ⟨y, ys, hy⟩ := List.exists_cons_of_ne_nil (splitChars_ne_nil d cs)
      rw [hy] at h1 h2
      simp only [List.tail_cons] at h2
      subst h2
      simp only [List.headD_cons] at h1
      have hcs : cs = y ++ d :: b := ih y b (by rw [hy])
      rw [← h1, hcs]
      rfl

theorem data_mk (l : List Char) : (String.mk l).data = l := rfl

theorem SplitStr_eq_pair (t : String) (h : (SplitStr t '=').length = 2) :
    SplitStr t '=' = [tokName t, tokValue t] := by
  rcases hs : SplitStr t '=' with _ | ⟨a, _ | ⟨b, _ | ⟨c, l⟩⟩⟩ <;>
    rw [hs] at h <;> simp at h
  simp [tokName, tokValue, hs]

theorem count_one_of_split_two (t : String) (h : (SplitStr t '=').length = 2) :
    t.data.count '=' = 1 := by
  have := splitChars_length '=' t.data
  simp only [SplitStr, List.length_map] at h
  omega

theorem split_two_of_count_one (t : String) (h : t.data.count '=' = 1) :
    (SplitStr t '=').length = 2 := by
  have := splitChars_length '=' t.data
  simp only [SplitStr, List.length_map]
  omega

theorem token_recomb (t : String) (h : (SplitStr t '=').length = 2) :
    tokName t ++ "=" ++ tokValue t = t := by
  have hlen : (splitChars '=' t.data).length = 2 := by
    simpa [SplitStr] using h
  rcases hl : splitChars '=' t.data with _ | ⟨a, _ | ⟨b, _ | ⟨c, l⟩⟩⟩ <;>
    rw [hl] at hlen <;> simp at hlen
  have hdata : t.data = a ++ '=' :: b := splitChars_eq_pair _ _ _ _ hl
  have hn : tokName t = String.mk a := by simp [tokName, SplitStr, hl]
  have hv : tokValue t = String.mk b := by simp [tokValue, SplitStr, hl]
  apply String.ext
  rw [hn, hv, hdata, String.data_append, String.data_append, data_mk, data_mk]
  simp

/-! ### Helper lemmas about the token constructor -/

theorem addTokens_ok (tokens : List String) : ∀ seen : List String,
    (∀ t ∈ tokens, (SplitStr t '=').length = 2) →
    (tokens.map tokName).Nodup →
    (∀ t ∈ tokens, tokName t ∉ seen) →
    addTokens seen tokens = .ok (tokens.map (fun t => (tokName t, tokValue t))) := by
  induction tokens with
  | nil => intro seen _ _ _; rfl
  | cons tok rest ih =>
    intro seen hwf hnd hseen
    have hpair := SplitStr_eq_pair tok (hwf tok (by simp))
    rw [List.map_cons, List.nodup_cons] at hnd
    have hns : tokName tok ∉ seen := hseen tok (by simp)
    have hih := ih (tokName tok :: seen) (fun t ht => hwf t (by simp [ht])) hnd.2 (by
      intro t ht
      simp only [List.mem_cons]
      rintro (he | hm)
      · exact hnd.1 (he ▸ List.mem_map_of_mem tokName ht)
      · exact hseen t (by simp [ht]) hm)
    rw [addTokens, hpair]
    simp [hns, hih]

theorem addTokens_malformed (pre : List String) : ∀ (seen : List String) (tok : String)
    (rest : List String),
    (∀ t ∈ pre, (SplitStr t '=').length = 2) →
    (pre.map tokName).Nodup →
    (∀ t ∈ pre, tokName t ∉ seen) →
    (SplitStr tok '=').length ≠ 2 →
    addTokens seen (pre ++ tok :: rest) = .error (.malformedParameter tok) := by
  induction pre with
  | nil =>
    intro seen tok rest _ _ _ hbad
    rcases hs : SplitStr tok '=' with _ | ⟨a, _ | ⟨b, _ | ⟨c, l⟩⟩⟩
    · rw [List.nil_append, addTokens, hs]
    · rw [List.nil_append, addTokens, hs]
    · rw [hs] at hbad
      exact absurd rfl hbad
    · rw [List.nil_append, addTokens, hs]
  | cons t pre ih =>
    intro seen tok rest hwf hnd hseen hbad
    have hpair := SplitStr_eq_pair t (hwf t (by simp))
    rw [List.map_cons, List.nodup_cons] at hnd
    have hns : tokName t ∉ seen := hseen t (by simp)
    have hih := ih (tokName t :: seen) tok rest (fun u hu => hwf u (by simp [hu])) hnd.2 (by
      intro u hu
      simp only [List.mem_cons]
      rintro (he | hm)
      · exact hnd.1 (he ▸ List.mem_map_of_mem tokName hu)
      · exact hseen u (by simp [hu]) hm) hbad
    rw [List.cons_append, addTokens, hpair]
    simp [hns, hih]

theorem addTokens_duplicate (pre : List String) : ∀ (seen : List String) (tok : String)
    (rest : List String),
    (∀ t ∈ pre, (SplitStr t '=').length = 2) →
    (pre.map tokName).Nodup →
    (∀ t ∈ pre, tokName t ∉ seen) →
    (SplitStr tok '=').length = 2 →
    (tokName tok ∈ seen ∨ tokName tok ∈ pre.map tokName) →
    addTokens seen (pre ++ tok :: rest) = .error (.duplicateParameter (tokName tok)) := by
  induction pre with
  | nil =>
    intro seen tok rest _ _ _ hwf hmem
    have hpair := SplitStr_eq_pair tok hwf
    have hm : tokName tok ∈ seen := by
      rcases hmem with hm | hm
      · exact hm
      · simp at hm
    rw [List.nil_append, addTokens, hpair]
    simp [hm]
  | cons t pre ih =>
    intro seen tok rest hwf hnd hseen hwft hmem
    have hpair := SplitStr_eq_pair t (hwf t (by simp))
    rw [List.map_cons, List.nodup_cons] at hnd
    have hns : tokName t ∉ seen := hseen t (by simp)
    have hih := ih (tokName t :: seen) tok rest (fun u hu => hwf u (by simp [hu])) hnd.2 (by
      intro u hu
      simp only [List.mem_cons]
      rintro (he | hm)
      · exact hnd.1 (he ▸ List.mem_map_of_mem tokName hu)
      · exact hseen u (by simp [hu]) hm) hwft (by
      rcases hmem with hm | hm
      · exact Or.inl (by simp [hm])
      · rw [List.map_cons, List.mem_cons] at hm
        rcases hm with hm | hm
        · exact Or.inl (by simp [hm])
        · exact Or.inr hm)
    rw [List.cons_append, addTokens, hpair]
    simp [hns, hih]

/-! ### Helper lemmas about the lookup loop -/

theorem getParamLoop_no_match {α : Type} (conv : String → Except PError α) (Name : String)
    (l : List (String × String)) :
    ∀ (v : α) (found : Bool), (∀ p ∈ l, p.1 ≠ Name) →
      getParamLoop conv Name l v found = .ok (v, found) := by
  induction l with
  | nil => intro v found _; rfl
  | cons p rest ih =>
    intro v found h
    obtain ⟨n, s⟩ := p
    rw [getParamLoop, if_neg (fun he : Name = n => h (n, s) (by simp) he.symm)]
    exact ih v found (fun q hq => h q (by simp [hq]))

theorem getParamLoop_found_stays {α : Type} (conv : String → Except PError α) (Name : String)
    (l : List (String × String)) :
    ∀ v : α, (∃ e, getParamLoop conv Name l v true = .error e) ∨
      ∃ w, getParamLoop conv Name l v true = .ok (w, true) := by
  induction l with
  | nil => intro v; exact Or.inr ⟨v, rfl⟩
  | cons p rest ih =>
    intro v
    obtain ⟨n, s⟩ := p
    rw [getParamLoop]
    by_cases hn : Name = n
    · rw [if_pos hn]
      cases hc : conv s with
      | ok w => exact ih w
      | error e => exact Or.inl ⟨e, rfl⟩
    · rw [if_neg hn]
      exact ih v

theorem getParamLoop_result {α : Type} (conv : String → Except PError α) (Name : String)
    (l : List (String × String)) :
    ∀ (v : α) (found : Bool),
    (∀ p ∈ l, Name = p.1 → ∃ w, conv p.2 = .ok w) →
    ((l.filter (fun p => decide (Name = p.1)) = [] →
        getParamLoop conv Name l v found = .ok (v, found)) ∧
      (∀ plast vlast,
        (l.filter (fun p => decide (Name = p.1))).getLast? = some plast →
        conv plast.2 = .ok vlast →
        getParamLoop conv Name l v found = .ok (vlast, true))) := by
  induction l with
  | nil =>
    intro v found _
    exact ⟨fun _ => rfl, fun plast vlast h _ => by simp at h⟩
  | cons p rest ih =>
    intro v found hconv
    obtain ⟨n, s⟩ := p
    have hconv' : ∀ q ∈ rest, Name = q.1 → ∃ w, conv q.2 = .ok w :=
      fun q hq => hconv q (by simp [hq])
    by_cases hn : Name = n
    · obtain ⟨w, hw⟩ := hconv (n, s) (by simp) hn
      constructor
      · intro hfil
        rw [List.filter_cons_of_pos (by simpa using hn)] at hfil
        exact absurd hfil (List.cons_ne_nil _ _)
      · intro plast vlast hlast hcl
        rw [List.filter_cons_of_pos (by simpa using hn)] at hlast
        rw [getParamLoop, if_pos hn, hw]
        rcases hfr : rest.filter (fun q => decide (Name = q.1)) with _ | ⟨q, qs⟩
        · rw [hfr, List.getLast?_singleton, Option.some.injEq] at hlast
          rw [← hlast] at hcl
          have hvw : vlast = w := by
            have h2 := hcl.symm.trans hw
            exact (Except.ok.injEq _ _).mp h2
          rw [hvw]
          exact (ih w true hconv').1 hfr
        · rw [hfr, List.getLast?_cons_cons] at hlast
          exact (ih w true hconv').2 plast vlast (by rw [hfr]; exact hlast) hcl
    · constructor
      · intro hfil
        rw [List.filter_cons_of_neg (by simpa using hn)] at hfil
        rw [getParamLoop, if_neg hn]
        exact (ih v found hconv').1 hfil
      · intro plast vlast hlast hcl
        rw [List.filter_cons_of_neg (by simpa using hn)] at hlast
        rw [getParamLoop, if_neg hn]
        exact (ih v found hconv').2 plast vlast hlast hcl

/-! ### Helper lemmas about the extraction loop -/

theorem extractLoop_kept (excl : List String) (l : List (String × String)) :
    ∀ seen : List String,
    (extractLoop excl l seen).1 = (l.filter (fun q => decide (q.1 ∉ excl))).map Prod.fst ∧
    (extractLoop excl l seen).2.1 = (l.filter (fun q => decide (q.1 ∉ excl))).map Prod.snd := by
  induction l with
  | nil => intro seen; exact ⟨rfl, rfl⟩
  | cons p rest ih =>
    intro seen
    obtain ⟨n, v⟩ := p
    by_cases hn : n ∈ excl
    · rw [extractLoop, if_pos hn, List.filter_cons_of_neg (by simpa using hn)]
      exact ih seen
    · rw [extractLoop, if_neg hn, List.filter_cons_of_pos (by simpa using hn)]
      refine ⟨?_, ?_⟩
      · simp only [List.map_cons]
        rw [(ih (seen.insert n)).1]
      · simp only [List.map_cons]
        rw [(ih (seen.insert n)).2]

theorem extractLoop_seen (excl : List String) (l : List (String × String)) :
    ∀ (seen : List String) (x : String),
      (x ∈ (extractLoop excl l seen).2.2 ↔
        x ∈ seen ∨ ∃ q ∈ l, q.1 = x ∧ x ∉ excl) := by
  induction l with
  | nil => intro seen x; simp [extractLoop]
  | cons p rest ih =>
    intro seen x
    obtain ⟨n, v⟩ := p
    by_cases hn : n ∈ excl
    · rw [extractLoop, if_pos hn, ih seen x]
      constructor
      · rintro (h | ⟨q, hq, h1, h2⟩)
        · exact Or.inl h
        · exact Or.inr ⟨q, by simp [hq], h1, h2⟩
      · rintro (h | ⟨q, hq, h1, h2⟩)
        · exact Or.inl h
        · rw [List.mem_cons] at hq
          rcases hq with rfl | hq
          · exact absurd (h1 ▸ hn) h2
          · exact Or.inr ⟨q, hq, h1, h2⟩
    · rw [extractLoop, if_neg hn, ih (seen.insert n) x, List.mem_insert_iff]
      constructor
      · rintro ((rfl | h) | ⟨q, hq, h1, h2⟩)
        · exact Or.inr ⟨(x, v), by simp, rfl, hn⟩
        · exact Or.inl h
        · exact Or.inr ⟨q, by simp [hq], h1, h2⟩
      · rintro (h | ⟨q, hq, h1, h2⟩)
        · exact Or.inl (Or.inr h)
        · rw [List.mem_cons] at hq
          rcases hq with rfl | hq
          · exact Or.inl (Or.inl h1.symm)
          · exact Or.inr ⟨q, hq, h1, h2⟩

/-! ### Helper lemmas about integer extraction -/

theorem digit_facts (c : Char) (h : c.isDigit = true) :
    c ≠ '-' ∧ c ≠ '+' ∧ isSpaceC c = false := by
  refine ⟨?_, ?_, ?_⟩
  · rintro rfl
    exact absurd h (by decide)
  · rintro rfl
    exact absurd h (by decide)
  · cases hw : isSpaceC c
    · rfl
    · exfalso
      have hd : c = ' ' ∨ c = '\t' ∨ c = '\n' ∨ c = '\x0b' ∨ c = '\x0c' ∨ c = '\r' := by
        have h2 := hw
        simp [isSpaceC] at h2
        tauto
      rcases hd with rfl | rfl | rfl | rfl | rfl | rfl <;> exact absurd h (by decide)

theorem streamReadInt_skip_ws (w cs : List Char) (hw : ∀ c ∈ w, isSpaceC c = true) :
    streamReadInt (w ++ cs) = streamReadInt cs := by
  simp only [streamReadInt, List.dropWhile_append_of_pos hw]

theorem streamReadInt_eq_iff (cs : List Char) (v : Int) :
    streamReadInt cs = some (v, []) ↔
      ∃ w sg ds : List Char, cs = w ++ sg ++ ds ∧ (∀ c ∈ w, isSpaceC c = true) ∧
        (sg = [] ∨ sg = ['+'] ∨ sg = ['-']) ∧ ds ≠ [] ∧ (∀ c ∈ ds, c.isDigit = true) ∧
        v = (if sg = ['-'] then -1 else 1) * (digitsVal ds : Int) ∧
        -2147483648 ≤ v ∧ v < 2147483648 := by
  constructor
  · intro h
    simp only [streamReadInt] at h
    have hsplit : cs = cs.takeWhile isSpaceC ++ cs.dropWhile isSpaceC :=
      (List.takeWhile_append_dropWhile isSpaceC cs).symm
    have hwpre : ∀ x ∈ cs.takeWhile isSpaceC, isSpaceC x = true :=
      fun x hx => List.mem_takeWhile_imp hx
    rcases hc1 : cs.dropWhile isSpaceC with _ | ⟨c, r⟩
    · rw [hc1] at h
      simp [readSign] at h
    · rw [hc1] at h
      rw [hc1] at hsplit
      by_cases hminus : c = '-'
      · subst hminus
        have h' : (if List.takeWhile Char.isDigit r = [] ∨
              (-1 : Int) * (digitsVal (List.takeWhile Char.isDigit r) : Int) < -2147483648 ∨
              2147483648 ≤ (-1 : Int) * (digitsVal (List.takeWhile Char.isDigit r) : Int)
            then (none : Option (Int × List Char))
            else some ((-1 : Int) * (digitsVal (List.takeWhile Char.isDigit r) : Int),
              List.dropWhile Char.isDigit r)) = some (v, []) := h
        by_cases hcond : List.takeWhile Char.isDigit r = [] ∨
            (-1 : Int) * (digitsVal (List.takeWhile Char.isDigit r) : Int) < -2147483648 ∨
            2147483648 ≤ (-1 : Int) * (digitsVal (List.takeWhile Char.isDigit r) : Int)
        · rw [if_pos hcond] at h'
          cases h'
        · rw [if_neg hcond] at h'
          rw [Option.some.injEq, Prod.mk.injEq] at h'
          obtain ⟨hv, hrest⟩ := h'
          rcases not_or.mp hcond with ⟨hemp, hrange⟩
          rcases not_or.mp hrange with ⟨hlo, hhi⟩
          have halldig : ∀ x ∈ r, x.isDigit = true := List.dropWhile_eq_nil_iff.mp hrest
          have htw : List.takeWhile Char.isDigit r = r := List.takeWhile_eq_self_iff.mpr halldig
          have hrne : r ≠ [] := fun hr => hemp (by rw [hr]; rfl)
          rw [htw] at hv hlo hhi
          refine ⟨cs.takeWhile isSpaceC, ['-'], r, by simpa using hsplit,
            hwpre, Or.inr (Or.inr rfl), hrne, halldig, by rw [← hv]; simp, ?_, ?_⟩
          · rw [← hv]
            exact not_lt.mp hlo
          · rw [← hv]
            exact not_le.mp hhi
      · by_cases hplus : c = '+'
        · subst hplus
          have h' : (if List.takeWhile Char.isDigit r = [] ∨
                (1 : Int) * (digitsVal (List.takeWhile Char.isDigit r) : Int) < -2147483648 ∨
                2147483648 ≤ (1 : Int) * (digitsVal (List.takeWhile Char.isDigit r) : Int)
              then (none : Option (Int × List Char))
              else some ((1 : Int) * (digitsVal (List.takeWhile Char.isDigit r) : Int),
                List.dropWhile Char.isDigit r)) = some (v, []) := h
          by_cases hcond : List.takeWhile Char.isDigit r = [] ∨
              (1 : Int) * (digitsVal (List.takeWhile Char.isDigit r) : Int) < -2147483648 ∨
              2147483648 ≤ (1 : Int) * (digitsVal (List.takeWhile Char.isDigit r) : Int)
          · rw [if_pos hcond] at h'
            cases h'
          · rw [if_neg hcond] at h'
            rw [Option.some.injEq, Prod.mk.injEq] at h'
            obtain ⟨hv, hrest⟩ := h'
            rcases not_or.mp hcond with ⟨hemp, hrange⟩
            rcases not_or.mp hrange with ⟨hlo, hhi⟩
            have halldig : ∀ x ∈ r, x.isDigit = true := List.dropWhile_eq_nil_iff.mp hrest
            have htw : List.takeWhile Char.isDigit r = r :=
              List.takeWhile_eq_self_iff.mpr halldig
            have hrne : r ≠ [] := fun hr => hemp (by rw [hr]; rfl)
            rw [htw] at hv hlo hhi
            refine ⟨cs.takeWhile isSpaceC, ['+'], r, by simpa using hsplit,
              hwpre, Or.inr (Or.inl rfl), hrne, halldig, by rw [← hv]; simp, ?_, ?_⟩
            · rw [← hv]
              exact not_lt.mp hlo
            · rw [← hv]
              exact not_le.mp hhi
        · rw [readSign, if_neg hminus, if_neg hplus] at h
          have h' : (if List.takeWhile Char.isDigit (c :: r) = [] ∨
                (1 : Int) * (digitsVal (List.takeWhile Char.isDigit (c :: r)) : Int)
                  < -2147483648 ∨
                2147483648 ≤ (1 : Int) * (digitsVal (List.takeWhile Char.isDigit (c :: r)) : Int)
              then (none : Option (Int × List Char))
              else some ((1 : Int) * (digitsVal (List.takeWhile Char.isDigit (c :: r)) : Int),
                List.dropWhile Char.isDigit (c :: r))) = some (v, []) := h
          by_cases hcond : List.takeWhile Char.isDigit (c :: r) = [] ∨
              (1 : Int) * (digitsVal (List.takeWhile Char.isDigit (c :: r)) : Int)
                < -2147483648 ∨
              2147483648 ≤ (1 : Int) * (digitsVal (List.takeWhile Char.isDigit (c :: r)) : Int)
          · rw [if_pos hcond] at h'
            cases h'
          · rw [if_neg hcond] at h'
            rw [Option.some.injEq, Prod.mk.injEq] at h'
            obtain ⟨hv, hrest⟩ := h'
            rcases not_or.mp hcond with ⟨hemp, hrange⟩
            rcases not_or.mp hrange with ⟨hlo, hhi⟩
            have halldig : ∀ x ∈ c :: r, x.isDigit = true :=
              List.dropWhile_eq_nil_iff.mp hrest
            have htw : List.takeWhile Char.isDigit (c :: r) = c :: r :=
              List.takeWhile_eq_self_iff.mpr halldig
            rw [htw] at hv hlo hhi
            refine ⟨cs.takeWhile isSpaceC, [], c :: r, by simpa using hsplit,
              hwpre, Or.inl rfl, by simp, halldig, by rw [← hv]; simp, ?_, ?_⟩
            · rw [← hv]
              exact not_lt.mp hlo
            · rw [← hv]
              exact not_le.mp hhi
  · rintro ⟨w, sg, ds, rfl, hw, hsg, hne, hds, hv, hlo, hhi⟩
    obtain ⟨d, ds2, rfl⟩ := List.exists_cons_of_ne_nil hne
    have hd := digit_facts d (hds d (by simp))
    have htw : List.takeWhile Char.isDigit (d :: ds2) = d :: ds2 :=
      List.takeWhile_eq_self_iff.mpr hds
    have hdw : List.dropWhile Char.isDigit (d :: ds2) = [] :=
      List.dropWhile_eq_nil_iff.mpr hds
    subst hv
    rcases hsg with rfl | rfl | rfl
    · rw [if_neg (show ¬(([] : List Char) = ['-']) by decide)] at hlo hhi
      rw [List.append_nil, streamReadInt_skip_ws w (d :: ds2) hw]
      simp only [streamReadInt]
      rw [List.dropWhile_cons_of_neg (show ¬(isSpaceC d = true) by simp [hd.2.2]),
        readSign, if_neg hd.1, if_neg hd.2.1]
      simp only [htw, hdw]
      rw [if_neg (by
        push_neg
        exact ⟨List.cons_ne_nil d ds2, hlo, hhi⟩)]
      simp
    · rw [if_neg (show ¬((['+'] : List Char) = ['-']) by decide)] at hlo hhi
      rw [List.append_assoc, streamReadInt_skip_ws w _ hw, List.singleton_append,
        show streamReadInt ('+' :: d :: ds2) =
          (if List.takeWhile Char.isDigit (d :: ds2) = [] ∨
              (1 : Int) * (digitsVal (List.takeWhile Char.isDigit (d :: ds2)) : Int)
                < -2147483648 ∨
              2147483648 ≤ (1 : Int) * (digitsVal (List.takeWhile Char.isDigit (d :: ds2)) : Int)
            then (none : Option (Int × List Char))
            else some ((1 : Int) * (digitsVal (List.takeWhile Char.isDigit (d :: ds2)) : Int),
              List.dropWhile Char.isDigit (d :: ds2))) from rfl,
        htw, hdw]
      rw [if_neg (by
        push_neg
        exact ⟨List.cons_ne_nil d ds2, hlo, hhi⟩)]
      simp
    · rw [if_pos rfl] at hlo hhi
      rw [List.append_assoc, streamReadInt_skip_ws w _ hw, List.singleton_append,
        show streamReadInt ('-' :: d :: ds2) =
          (if List.takeWhile Char.isDigit (d :: ds2) = [] ∨
              (-1 : Int) * (digitsVal (List.takeWhile Char.isDigit (d :: ds2)) : Int)
                < -2147483648 ∨
              2147483648 ≤ (-1 : Int)
                * (digitsVal (List.takeWhile Char.isDigit (d :: ds2)) : Int)
            then (none : Option (Int × List Char))
            else some ((-1 : Int) * (digitsVal (List.takeWhile Char.isDigit (d :: ds2)) : Int),
              List.dropWhile Char.isDigit (d :: ds2))) from rfl,
        htw, hdw]
      rw [if_neg (by
        push_neg
        exact ⟨List.cons_ne_nil d ds2, hlo, hhi⟩)]
      simp

theorem getParamLoop_match_found {α : Type} (conv : String → Except PError α) (Name : String)
    (l : List (String × String)) :
    ∀ v : α, (∃ q ∈ l, Name = q.1) →
      (∃ e, getParamLoop conv Name l v false = .error e) ∨
      ∃ w, getParamLoop conv Name l v false = .ok (w, true) := by
  induction l with
  | nil =>
    rintro v ⟨q, hq, _⟩
    cases hq
  | cons p rest ih =>
    rintro v ⟨q, hq, hq1⟩
    obtain ⟨n, s⟩ := p
    rw [getParamLoop]
    by_cases hn : Name = n
    · rw [if_pos hn]
      cases hc : conv s with
      | ok w => exact getParamLoop_found_stays conv Name rest w
      | error e => exact Or.inl ⟨e, rfl⟩
    · rw [if_neg hn]
      apply ih v
      rcases List.mem_cons.mp hq with rfl | hq2
      · exact absurd hq1 hn
      · exact ⟨q, hq2, hq1⟩

theorem zipWith_self {α β : Type} (f : α → α → β) (l : List α) :
    List.zipWith f l l = l.map (fun a => f a a) := by
  induction l with
  | nil => rfl
  | cons a l ih => simp [ih]

/-! ### The claims -/

/-- C10: the parallel-sequence `AnyParams` constructor stores both
sequences exactly as given with no validation at all (any lengths, any
duplicate names); the `len(names) == len(values)` invariant is checked
only when an `AnyParamManager` is constructed over the set, which
fails exactly on a mismatch and otherwise starts with an empty seen
set. -/
theorem c10_raw_ctor_unchecked :
    (∀ ns vs : List String, (AnyParams.mk ns vs).ParamNames = ns ∧
      (AnyParams.mk ns vs).ParamValues = vs) ∧
    (∀ p : AnyParams,
      (p.ParamNames.length = p.ParamValues.length → mkAnyParamManager p = .ok ⟨p, []⟩) ∧
      (p.ParamNames.length ≠ p.ParamValues.length →
        mkAnyParamManager p = .error .lengthMismatch)) := by
  refine ⟨fun ns vs => ⟨rfl, rfl⟩, fun p => ⟨?_, ?_⟩⟩
  · intro h
    unfold mkAnyParamManager
    rw [if_pos h]
  · intro h
    unfold mkAnyParamManager
    rw [if_neg h]

theorem c10_witness :
    (AnyParams.mk ["a", "a"] ["1"]).ParamNames = ["a", "a"] ∧
    mkAnyParamManager ⟨["a", "a"], ["1"]⟩ = .error .lengthMismatch ∧
    mkAnyParamManager ⟨["a"], ["1"]⟩ = .ok ⟨⟨["a"], ["1"]⟩, []⟩ :=
  ⟨(c10_raw_ctor_unchecked.1 ["a", "a"] ["1"]).1,
    (c10_raw_ctor_unchecked.2 ⟨["a", "a"], ["1"]⟩).2 (by decide),
    (c10_raw_ctor_unchecked.2 ⟨["a"], ["1"]⟩).1 (by decide)⟩

/-- C3: end-of-pass validation succeeds exactly when every name of the
managed set is in the seen set; the reported aggregate contains exactly
the unconsumed names (all of them, in order); when at least one name is
unconsumed the pass fails with that aggregate. -/
theorem c3_end_of_pass_validation (m : AnyParamManager) :
    (m.endOfPassCheck = .ok () ↔ ∀ n ∈ m.params.ParamNames, n ∈ m.seen) ∧
    (∀ n, n ∈ m.unseenNames ↔ n ∈ m.params.ParamNames ∧ n ∉ m.seen) ∧
    ((∃ n ∈ m.params.ParamNames, n ∉ m.seen) →
      m.endOfPassCheck = .error (.unknownParameters m.unseenNames)) := by
  have hmem : ∀ n, n ∈ m.unseenNames ↔ n ∈ m.params.ParamNames ∧ n ∉ m.seen := by
    intro n
    simp [AnyParamManager.unseenNames, List.mem_filter]
  refine ⟨⟨?_, ?_⟩, hmem, ?_⟩
  · intro h n hn
    by_contra hns
    have hmem2 : n ∈ m.unseenNames := (hmem n).mpr ⟨hn, hns⟩
    have hne : ¬ m.unseenNames.isEmpty := by
      rw [List.isEmpty_iff]
      intro hnil
      rw [hnil] at hmem2
      cases hmem2
    unfold AnyParamManager.endOfPassCheck at h
    rw [if_neg hne] at h
    cases h
  · intro hall
    have hempty : m.unseenNames = [] := by
      unfold AnyParamManager.unseenNames
      rw [List.filter_eq_nil_iff]
      intro a ha
      simp [hall a ha]
    unfold AnyParamManager.endOfPassCheck
    rw [if_pos (by rw [List.isEmpty_iff]; exact hempty)]
  · rintro ⟨n, hn, hns⟩
    have hmem2 : n ∈ m.unseenNames := (hmem n).mpr ⟨hn, hns⟩
    have hne : ¬ m.unseenNames.isEmpty := by
      rw [List.isEmpty_iff]
      intro hnil
      rw [hnil] at hmem2
      cases hmem2
    unfold AnyParamManager.endOfPassCheck
    rw [if_neg hne]

theorem c3_witness :
    AnyParamManager.endOfPassCheck ⟨⟨["a"], ["1"]⟩, ["a"]⟩ = .ok () ∧
    AnyParamManager.endOfPassCheck ⟨⟨["a", "b", "c"], ["1", "2", "3"]⟩, ["b"]⟩
      = .error (.unknownParameters ["a", "c"]) := by
  constructor
  · exact (c3_end_of_pass_validation ⟨⟨["a"], ["1"]⟩, ["a"]⟩).1.mpr (by decide)
  · have h := (c3_end_of_pass_validation ⟨⟨["a", "b", "c"], ["1", "2", "3"]⟩, ["b"]⟩).2.2
      ⟨"a", by decide, by decide⟩
    rw [h]
    rfl

/-- C9: an optional lookup of a name that has no entry still inserts
the name into the seen set — so the seen set can contain names that
are not in the managed set — while the end-of-pass validation result
is unchanged, since it iterates only over the set's own names. -/
theorem c9_seen_superset {α : Type} (conv : String → Except PError α)
    (m : AnyParamManager) (Name : String) (v : α)
    (h : Name ∉ m.params.ParamNames) :
    m.GetParamOptional conv Name v = .ok (v, ⟨m.params, m.seen.insert Name⟩) ∧
    Name ∈ m.seen.insert Name ∧
    AnyParamManager.unseenNames ⟨m.params, m.seen.insert Name⟩ = m.unseenNames ∧
    AnyParamManager.endOfPassCheck ⟨m.params, m.seen.insert Name⟩ = m.endOfPassCheck := by
  have hnom : ∀ q ∈ m.params.ParamNames.zip m.params.ParamValues, q.1 ≠ Name := by
    intro q hq he
    obtain ⟨n, s⟩ := q
    exact h (he ▸ (List.of_mem_zip hq).1)
  have hloop := getParamLoop_no_match conv Name
    (m.params.ParamNames.zip m.params.ParamValues) v false hnom
  have hun : AnyParamManager.unseenNames ⟨m.params, m.seen.insert Name⟩ = m.unseenNames := by
    unfold AnyParamManager.unseenNames
    apply List.filter_congr
    intro n hn
    have hne : n ≠ Name := fun he => h (he ▸ hn)
    simp [List.mem_insert_iff, hne]
  refine ⟨?_, by simp, hun, ?_⟩
  · unfold AnyParamManager.GetParamOptional AnyParamManager.GetParam
    rw [hloop]
    rfl
  · unfold AnyParamManager.endOfPassCheck
    rw [hun]

theorem c9_witness :
    AnyParamManager.GetParamOptional ConvertStrToValueInt ⟨⟨["a"], ["1"]⟩, []⟩ "b" 7
      = .ok (7, ⟨⟨["a"], ["1"]⟩, List.insert "b" []⟩) ∧
    AnyParamManager.endOfPassCheck ⟨⟨["a"], ["1"]⟩, List.insert "b" []⟩
      = AnyParamManager.endOfPassCheck ⟨⟨["a"], ["1"]⟩, []⟩ := by
  have h := c9_seen_superset ConvertStrToValueInt ⟨⟨["a"], ["1"]⟩, []⟩ "b" 7 (by decide)
  exact ⟨h.1, h.2.2.2⟩

/-- C1 (amended): `GetParamRequired` looks the name up among the
managed set's entries; if no entry has that name it fails with the
missing-required-parameter error for that name (without marking it
seen); otherwise every matching entry's textual value is converted in
turn and the conversion of the LAST match — not the first — is
returned, with the name added to the seen set. -/
theorem c1_required_last_match {α : Type} (conv : String → Except PError α)
    (m : AnyParamManager) (Name : String) (v₀ : α) :
    (Name ∉ m.params.ParamNames →
      m.GetParamRequired conv Name v₀ = .error (.missingRequiredParameter Name)) ∧
    (∀ plast vlast,
      (∀ q ∈ (m.params.ParamNames.zip m.params.ParamValues).filter
          (fun q => decide (Name = q.1)), ∃ w, conv q.2 = .ok w) →
      ((m.params.ParamNames.zip m.params.ParamValues).filter
          (fun q => decide (Name = q.1))).getLast? = some plast →
      conv plast.2 = .ok vlast →
      m.GetParamRequired conv Name v₀ = .ok (vlast, ⟨m.params, m.seen.insert Name⟩)) := by
  constructor
  · intro hna
    have hnom : ∀ q ∈ m.params.ParamNames.zip m.params.ParamValues, q.1 ≠ Name := by
      intro q hq he
      obtain ⟨n, str⟩ := q
      exact hna (he ▸ (List.of_mem_zip hq).1)
    have hloop := getParamLoop_no_match conv Name
      (m.params.ParamNames.zip m.params.ParamValues) v₀ false hnom
    unfold AnyParamManager.GetParamRequired AnyParamManager.GetParam
    rw [hloop]
    rfl
  · intro plast vlast hconv hlast hcl
    have hconv2 : ∀ q ∈ m.params.ParamNames.zip m.params.ParamValues,
        Name = q.1 → ∃ w, conv q.2 = .ok w := by
      intro q hq he
      exact hconv q (List.mem_filter.mpr ⟨hq, by simpa using he⟩)
    have hloop := (getParamLoop_result conv Name
      (m.params.ParamNames.zip m.params.ParamValues) v₀ false hconv2).2 plast vlast hlast hcl
    unfold AnyParamManager.GetParamRequired AnyParamManager.GetParam
    rw [hloop]
    rfl

theorem c1_required_witness :
    AnyParamManager.GetParamRequired ConvertStrToValueInt ⟨⟨["a"], ["5"]⟩, []⟩ "b" 0
      = .error (.missingRequiredParameter "b") ∧
    AnyParamManager.GetParamRequired ConvertStrToValueInt ⟨⟨["a"], ["5"]⟩, []⟩ "a" 0
      = .ok (5, ⟨⟨["a"], ["5"]⟩, ["a"]⟩) := by
  constructor
  · exact (c1_required_last_match ConvertStrToValueInt ⟨⟨["a"], ["5"]⟩, []⟩ "b" 0).1 (by decide)
  · have h := (c1_required_last_match ConvertStrToValueInt ⟨⟨["a"], ["5"]⟩, []⟩ "a" 0).2
      ("a", "5") 5 (by
        intro q hq
        have hfil : (([("a", "5")] : List (String × String)).filter
            (fun q => decide ("a" = q.1))) = [("a", "5")] := by decide
        rw [show (["a"] : List String).zip ["5"] = [("a", "5")] from rfl, hfil] at hq
        simp at hq
        exact ⟨5, by rw [hq]; rfl⟩)
      (by rw [show ((["a"] : List String).zip ["5"]).filter (fun q => decide ("a" = q.1))
            = [("a", "5")] from by decide]
          rfl)
      (by rfl)
    exact h

/-- C1 counterexample: over a set with duplicate name `a` (values `1`
then `2`), the required getter returns 2 — the conversion of the LAST
matching entry — although the first match converts to 1, refuting the
claim's first-match rule. -/
theorem c1_counterexample :
    mkAnyParamManager ⟨["a", "a"], ["1", "2"]⟩ = .ok ⟨⟨["a", "a"], ["1", "2"]⟩, []⟩ ∧
    AnyParamManager.GetParamRequired ConvertStrToValueInt ⟨⟨["a", "a"], ["1", "2"]⟩, []⟩ "a" 0
      = .ok (2, ⟨⟨["a", "a"], ["1", "2"]⟩, ["a"]⟩) ∧
    ConvertStrToValueInt "1" = .ok 1 ∧ (2 : Int) ≠ (1 : Int) :=
  ⟨rfl, rfl, rfl, by decide⟩

/-- C7: when the name is absent the optional getter never fails and
returns the caller's default unchanged (inserting the name into the
seen set); when the name is present the optional getter is the very
same computation — lookup, conversion and seen-marking — as the
required getter. -/
theorem c7_optional_default {α : Type} (conv : String → Except PError α)
    (m : AnyParamManager) (Name : String) (v : α)
    (hlen : m.params.ParamNames.length = m.params.ParamValues.length) :
    (Name ∉ m.params.ParamNames →
      m.GetParamOptional conv Name v = .ok (v, ⟨m.params, m.seen.insert Name⟩)) ∧
    (Name ∈ m.params.ParamNames →
      m.GetParamOptional conv Name v = m.GetParamRequired conv Name v) := by
  constructor
  · intro hna
    have hnom : ∀ q ∈ m.params.ParamNames.zip m.params.ParamValues, q.1 ≠ Name := by
      intro q hq he
      obtain ⟨n, str⟩ := q
      exact hna (he ▸ (List.of_mem_zip hq).1)
    have hloop := getParamLoop_no_match conv Name
      (m.params.ParamNames.zip m.params.ParamValues) v false hnom
    unfold AnyParamManager.GetParamOptional AnyParamManager.GetParam
    rw [hloop]
    rfl
  · intro hin
    have hzip : Name ∈ (m.params.ParamNames.zip m.params.ParamValues).map Prod.fst := by
      rw [List.map_fst_zip _ _ (le_of_eq hlen)]
      exact hin
    rw [List.mem_map] at hzip
    obtain ⟨q, hq, hq1⟩ := hzip
    rcases getParamLoop_match_found conv Name (m.params.ParamNames.zip m.params.ParamValues)
        v ⟨q, hq, hq1.symm⟩ with ⟨e, he⟩ | ⟨w, hw⟩
    · unfold AnyParamManager.GetParamOptional AnyParamManager.GetParamRequired
        AnyParamManager.GetParam
      rw [he]
    · unfold AnyParamManager.GetParamOptional AnyParamManager.GetParamRequired
        AnyParamManager.GetParam
      rw [hw]
      rfl

theorem c7_optional_witness :
    AnyParamManager.GetParamOptional ConvertStrToValueInt ⟨⟨["a"], ["5"]⟩, []⟩ "b" 7
      = .ok (7, ⟨⟨["a"], ["5"]⟩, List.insert "b" []⟩) ∧
    AnyParamManager.GetParamOptional ConvertStrToValueInt ⟨⟨["a"], ["5"]⟩, []⟩ "a" 7
      = AnyParamManager.GetParamRequired ConvertStrToValueInt ⟨⟨["a"], ["5"]⟩, []⟩ "a" 7 :=
  ⟨(c7_optional_default ConvertStrToValueInt ⟨⟨["a"], ["5"]⟩, []⟩ "b" 7 rfl).1 (by decide),
    (c7_optional_default ConvertStrToValueInt ⟨⟨["a"], ["5"]⟩, []⟩ "a" 7 rfl).2 (by decide)⟩

/-- C4: construction from raw tokens fails with the malformed-token
error when a token (the first offending one) does not split on `=`
into exactly a name and a value, fails with the duplicate error when a
well-formed token repeats a name already seen in this input regardless
of values, and otherwise stores every token's name and value in input
order (names unique by the duplicate check). -/
theorem c4_token_construction (tokens : List String) :
    ((∀ t ∈ tokens, (SplitStr t '=').length = 2) → (tokens.map tokName).Nodup →
      AnyParams.ofMethodDesc tokens = .ok ⟨tokens.map tokName, tokens.map tokValue⟩) ∧
    (∀ pre tok rest, tokens = pre ++ tok :: rest →
      (∀ t ∈ pre, (SplitStr t '=').length = 2) → (pre.map tokName).Nodup →
      (SplitStr tok '=').length ≠ 2 →
      AnyParams.ofMethodDesc tokens = .error (.malformedParameter tok)) ∧
    (∀ pre tok rest, tokens = pre ++ tok :: rest →
      (∀ t ∈ pre, (SplitStr t '=').length = 2) → (pre.map tokName).Nodup →
      (SplitStr tok '=').length = 2 → tokName tok ∈ pre.map tokName →
      AnyParams.ofMethodDesc tokens = .error (.duplicateParameter (tokName tok))) := by
  refine ⟨?_, ?_, ?_⟩
  · intro hwf hnd
    unfold AnyParams.ofMethodDesc
    rw [addTokens_ok tokens [] hwf hnd (by simp)]
    simp [List.map_map]
  · rintro pre tok rest rfl hwf hnd hbad
    unfold AnyParams.ofMethodDesc
    rw [addTokens_malformed pre [] tok rest hwf hnd (by simp) hbad]
  · rintro pre tok rest rfl hwf hnd hwft hmem
    unfold AnyParams.ofMethodDesc
    rw [addTokens_duplicate pre [] tok rest hwf hnd (by simp) hwft (Or.inr hmem)]

theorem c4_token_construction_witness :
    AnyParams.ofMethodDesc ["a=1", "b=2"] = .ok ⟨["a", "b"], ["1", "2"]⟩ ∧
    AnyParams.ofMethodDesc ["a=1", "b", "c=3"] = .error (.malformedParameter "b") ∧
    AnyParams.ofMethodDesc ["a=1", "a=2"] = .error (.duplicateParameter "a") := by
  refine ⟨?_, ?_, ?_⟩
  · have h := (c4_token_construction ["a=1", "b=2"]).1 (by decide) (by decide)
    rw [h]
    rfl
  · exact (c4_token_construction ["a=1", "b", "c=3"]).2.1 ["a=1"] "b" ["c=3"] rfl
      (by decide) (by decide) (by decide)
  · have h := (c4_token_construction ["a=1", "a=2"]).2.2 ["a=1"] "a=2" [] rfl
      (by decide) (by decide) (by decide) (by decide)
    rw [h]
    rfl

/-- C8: for every token list in which each token has exactly one `=`
and the names are pairwise distinct, construction succeeds and gluing
each resulting name and value back with `=`, in order, reproduces the
original tokens exactly. -/
theorem c8_roundtrip (tokens : List String)
    (h1 : ∀ t ∈ tokens, t.data.count '=' = 1)
    (h2 : (tokens.map tokName).Nodup) :
    ∃ p : AnyParams, AnyParams.ofMethodDesc tokens = .ok p ∧
      List.zipWith (fun n v => n ++ "=" ++ v) p.ParamNames p.ParamValues = tokens := by
  have hwf : ∀ t ∈ tokens, (SplitStr t '=').length = 2 :=
    fun t ht => split_two_of_count_one t (h1 t ht)
  refine ⟨⟨tokens.map tokName, tokens.map tokValue⟩, ?_, ?_⟩
  · unfold AnyParams.ofMethodDesc
    rw [addTokens_ok tokens [] hwf h2 (by simp)]
    simp [List.map_map]
  · show List.zipWith (fun n v => n ++ "=" ++ v)
      (tokens.map tokName) (tokens.map tokValue) = tokens
    rw [List.zipWith_map, zipWith_self]
    have hcongr : ∀ t ∈ tokens, tokName t ++ "=" ++ tokValue t = id t :=
      fun t ht => token_recomb t (hwf t ht)
    rw [List.map_congr_left hcongr, List.map_id]

theorem c8_roundtrip_witness :
    AnyParams.ofMethodDesc ["a=1", "b=2"] = .ok ⟨["a", "b"], ["1", "2"]⟩ ∧
    List.zipWith (fun n v => n ++ "=" ++ v) ["a", "b"] ["1", "2"] = ["a=1", "b=2"] := by
  obtain ⟨p, hp, hz⟩ := c8_roundtrip ["a=1", "b=2"] (by decide) (by decide)
  have hcomp : AnyParams.ofMethodDesc ["a=1", "b=2"] = .ok ⟨["a", "b"], ["1", "2"]⟩ := rfl
  have hpe : p = ⟨["a", "b"], ["1", "2"]⟩ :=
    (Except.ok.injEq _ _).mp (hp.symm.trans hcomp)
  subst hpe
  exact ⟨hcomp, hz⟩

/-- C5: `ExtractParametersExcept` returns a fresh set holding, in
original order, exactly the entries of the managed set whose name is
not excluded; every extracted name is inserted into this manager's
seen set (which otherwise keeps its previous members), and the managed
set itself is left untouched. -/
theorem c5_extract_except (m : AnyParamManager) (ExceptList : List String) :
    ((m.ExtractParametersExcept ExceptList).1.ParamNames =
      ((m.params.ParamNames.zip m.params.ParamValues).filter
        (fun q => decide (q.1 ∉ ExceptList))).map Prod.fst) ∧
    ((m.ExtractParametersExcept ExceptList).1.ParamValues =
      ((m.params.ParamNames.zip m.params.ParamValues).filter
        (fun q => decide (q.1 ∉ ExceptList))).map Prod.snd) ∧
    (∀ n ∈ (m.ExtractParametersExcept ExceptList).1.ParamNames,
      n ∈ (m.ExtractParametersExcept ExceptList).2.seen) ∧
    (∀ n ∈ m.seen, n ∈ (m.ExtractParametersExcept ExceptList).2.seen) ∧
    (m.ExtractParametersExcept ExceptList).2.params = m.params := by
  have hkept := extractLoop_kept ExceptList
    (m.params.ParamNames.zip m.params.ParamValues) m.seen
  have hseen := extractLoop_seen ExceptList
    (m.params.ParamNames.zip m.params.ParamValues) m.seen
  refine ⟨hkept.1, hkept.2, ?_, ?_, rfl⟩
  · intro n hn
    have hn2 : n ∈ ((m.params.ParamNames.zip m.params.ParamValues).filter
        (fun q => decide (q.1 ∉ ExceptList))).map Prod.fst := by
      rw [← hkept.1]
      exact hn
    rw [List.mem_map] at hn2
    obtain ⟨q, hq, rfl⟩ := hn2
    rw [List.mem_filter] at hq
    exact (hseen q.1).mpr (Or.inr ⟨q, hq.1, rfl, by simpa using hq.2⟩)
  · intro n hn
    exact (hseen n).mpr (Or.inl hn)

theorem c5_extract_except_witness :
    (AnyParamManager.ExtractParametersExcept
      ⟨⟨["a", "b", "c"], ["1", "2", "3"]⟩, []⟩ ["a"]).1.ParamNames = ["b", "c"] ∧
    (AnyParamManager.ExtractParametersExcept
      ⟨⟨["a", "b", "c"], ["1", "2", "3"]⟩, []⟩ ["a"]).1.ParamValues = ["2", "3"] ∧
    "b" ∈ (AnyParamManager.ExtractParametersExcept
      ⟨⟨["a", "b", "c"], ["1", "2", "3"]⟩, []⟩ ["a"]).2.seen ∧
    (AnyParamManager.ExtractParametersExcept
      ⟨⟨["a", "b", "c"], ["1", "2", "3"]⟩, []⟩ ["a"]).2.params
      = ⟨["a", "b", "c"], ["1", "2", "3"]⟩ := by
  refine ⟨?_, ?_,
    (c5_extract_except ⟨⟨["a", "b", "c"], ["1", "2", "3"]⟩, []⟩ ["a"]).2.2.1 "b" (by decide),
    (c5_extract_except ⟨⟨["a", "b", "c"], ["1", "2", "3"]⟩, []⟩ ["a"]).2.2.2.2⟩
  · rw [(c5_extract_except ⟨⟨["a", "b", "c"], ["1", "2", "3"]⟩, []⟩ ["a"]).1]
    rfl
  · rw [(c5_extract_except ⟨⟨["a", "b", "c"], ["1", "2", "3"]⟩, []⟩ ["a"]).2.1]
    rfl

/-- C6: `ChangeParam` locates the first entry whose name matches,
stores the serialized replacement as that entry's new value, leaves
the names, the length, and every other value unchanged, and adds no
entries; when no entry matches it fails with the parameter-not-found
error (returning no modified set at all). -/
theorem c6_change_param {α : Type} (serialize : α → String) (p : AnyParams)
    (Name : String) (Value : α) :
    (Name ∉ p.ParamNames →
      p.ChangeParam serialize Name Value = .error (.parameterNotFound Name)) ∧
    (∀ i : Nat, p.ParamNames[i]? = some Name →
      (∀ j, j < i → p.ParamNames[j]? ≠ some Name) →
      p.ChangeParam serialize Name Value
        = .ok ⟨p.ParamNames, p.ParamValues.set i (serialize Value)⟩ ∧
      (p.ParamValues.set i (serialize Value)).length = p.ParamValues.length ∧
      (i < p.ParamValues.length →
        (p.ParamValues.set i (serialize Value))[i]? = some (serialize Value)) ∧
      (∀ j, j ≠ i → (p.ParamValues.set i (serialize Value))[j]? = p.ParamValues[j]?)) := by
  constructor
  · intro hna
    have hnone : p.ParamNames.findIdx? (fun n => Name == n) = none := by
      rw [List.findIdx?_eq_none_iff]
      intro x hx
      by_cases he : Name = x
      · exact absurd (he ▸ hx) hna
      · simp [he]
    unfold AnyParams.ChangeParam
    rw [hnone]
  · intro i hi hfirst
    have hlt : i < p.ParamNames.length := by
      rcases List.getElem?_eq_some.mp hi with ⟨h, _⟩
      exact h
    have hieq : p.ParamNames[i] = Name := by
      rcases List.getElem?_eq_some.mp hi with ⟨h, he⟩
      exact he
    have hsome : p.ParamNames.findIdx? (fun n => Name == n) = some i := by
      rw [List.findIdx?_eq_some_iff_getElem]
      refine ⟨hlt, by simp [hieq], ?_⟩
      intro j hji
      have hjlt : j < p.ParamNames.length := Nat.lt_trans hji hlt
      intro hbeq
      apply hfirst j hji
      rw [List.getElem?_eq_getElem hjlt]
      have : Name = p.ParamNames[j] := by simpa using hbeq
      rw [← this]
    refine ⟨?_, by simp, fun h => List.getElem?_set_self h, ?_⟩
    · unfold AnyParams.ChangeParam
      rw [hsome]
    · intro j hj
      exact List.getElem?_set_ne (fun he => hj he.symm)

theorem c6_change_param_witness :
    AnyParams.ChangeParam (fun v : Int => toString v) ⟨["a", "b"], ["1", "2"]⟩ "z" 9
      = .error (.parameterNotFound "z") ∧
    AnyParams.ChangeParam (fun v : Int => toString v) ⟨["a", "b"], ["1", "2"]⟩ "b" 9
      = .ok ⟨["a", "b"], ["1", "9"]⟩ := by
  constructor
  · exact (c6_change_param (fun v : Int => toString v)
      ⟨["a", "b"], ["1", "2"]⟩ "z" 9).1 (by decide)
  · have h := ((c6_change_param (fun v : Int => toString v)
      ⟨["a", "b"], ["1", "2"]⟩ "b" 9).2 1 (by decide)
      (by
        intro j hj
        have hj0 : j = 0 := by omega
        subst hj0
        decide)).1
    rw [h]
    rfl

/-- C2 (amended): conversion to `int` succeeds exactly when the whole
stored string is optional C-locale whitespace, an optional sign, and a
nonempty digit run whose value fits a 32-bit `int` (hence trailing
unparsed characters or an out-of-range value make it fail), and any
failure produces the conversion error carrying the offending text and
the target type name — but not the parameter name, which the converter
never receives; for the string type conversion is the identity and
always succeeds. -/
theorem c2_conversion_spec :
    (∀ s : String, ConvertStrToValueString s = .ok s) ∧
    (∀ (s : String) (v : Int), ConvertStrToValueInt s = .ok v ↔
      ∃ w sg ds : List Char, s.data = w ++ sg ++ ds ∧ (∀ c ∈ w, isSpaceC c = true) ∧
        (sg = [] ∨ sg = ['+'] ∨ sg = ['-']) ∧ ds ≠ [] ∧ (∀ c ∈ ds, c.isDigit = true) ∧
        v = (if sg = ['-'] then -1 else 1) * (digitsVal ds : Int) ∧
        -2147483648 ≤ v ∧ v < 2147483648) ∧
    (∀ s : String, (∃ v, ConvertStrToValueInt s = .ok v) ∨
      ConvertStrToValueInt s = .error (.parameterConversion s "i")) := by
  refine ⟨fun s => rfl, ?_, ?_⟩
  · intro s v
    rw [← streamReadInt_eq_iff s.data v]
    unfold ConvertStrToValueInt
    rcases h : streamReadInt s.data with _ | ⟨w, rest⟩
    · simp
    · rcases rest with _ | ⟨r, rs⟩
      · simp
      · simp
  · intro s
    unfold ConvertStrToValueInt
    rcases streamReadInt s.data with _ | ⟨w, rest⟩
    · exact Or.inr rfl
    · rcases rest with _ | ⟨r, rs⟩
      · exact Or.inl ⟨w, rfl⟩
      · exact Or.inr rfl

/-- C2 counterexample: the conversion failure for text `"42x"` behind
parameter `"zq"` aborts with the message naming only the text and the
target type; the parameter name `"zq"` occurs nowhere in the error or
its message, refuting the claim that the error names the parameter. -/
theorem c2_counterexample :
    AnyParams.ofMethodDesc ["zq=42x"] = .ok ⟨["zq"], ["42x"]⟩ ∧
    mkAnyParamManager ⟨["zq"], ["42x"]⟩ = .ok ⟨⟨["zq"], ["42x"]⟩, []⟩ ∧
    AnyParamManager.GetParamRequired ConvertStrToValueInt ⟨⟨["zq"], ["42x"]⟩, []⟩ "zq" 0
      = .error (.parameterConversion "42x" "i") ∧
    (PError.parameterConversion "42x" "i").message
      = "Failed to convert value '42x' from type: i" ∧
    ¬ ("zq".data <:+: (PError.parameterConversion "42x" "i").message.data) :=
  ⟨rfl, rfl, rfl, rfl, by decide⟩

theorem c2_conversion_spec_witness :
    ConvertStrToValueString "3.14" = .ok "3.14" ∧
    ConvertStrToValueInt "42" = .ok 42 ∧
    ConvertStrToValueInt "42x" = .error (.parameterConversion "42x" "i") := by
  refine ⟨c2_conversion_spec.1 "3.14", ?_, ?_⟩
  · exact (c2_conversion_spec.2.1 "42" 42).mpr
      ⟨[], [], ['4', '2'], rfl, by simp, Or.inl rfl, by simp, by decide, by decide,
        by decide, by decide⟩
  · rcases c2_conversion_spec.2.2 "42x" with ⟨v, hv⟩ | h
    · exfalso
      have hc : ConvertStrToValueInt "42x"
          = .error (.parameterConversion "42x" "i") := rfl
      rw [hc] at hv
      cases hv
    · exact h

end similarity
